import Mathlib

/-!
Verification development for the skukozh file-discovery and filtering engine.

The Go source is shallowly embedded over `Str := List Char` (Go strings are
byte sequences; all inputs of interest are ASCII, where bytes, characters and
code points coincide and Go's byte-wise lexicographic order equals the
code-point order used here).  Each definition mirrors one Go function:

* `parseGitignore`           ← `parseGitignore` (main.go)
* `matchGitignorePattern`    ← `matchGitignorePattern`
* `matchWildcard`            ← `matchWildcard`
* `filepathMatch`            ← Go stdlib `path/filepath.Match` (non-Windows)
* `isIgnoredByGitignore`     ← `isIgnoredByGitignore`
* `findFilesModel`           ← `findFilesInternal`, with the file system
  abstracted as a finite tree (`FSEntry`/`RootStat`); an entry whose directory
  listing fails mid-walk is `FSEntry.unreadableDir` (WalkDir reports the read
  error to the callback, which returns nil and skips the subtree).
-/

abbrev Str := List Char

def str (s : String) : Str := s.data

/-- Does `s` begin with `p` (Go `strings.HasPrefix p-second`)? -/
def leadsWith : Str → Str → Bool
  | [], _ => true
  | _ :: _, [] => false
  | p :: ps, c :: cs => p == c && leadsWith ps cs

/-- Does `s` end with `suf` (Go `strings.HasSuffix`)? -/
def strEndsWith (s suf : Str) : Bool := leadsWith suf.reverse s.reverse

/-- Go `strings.Split(s, sep)` for a one-character separator. -/
def splitOnChar (sep : Char) : Str → List Str
  | [] => [[]]
  | c :: rest =>
    if c = sep then [] :: splitOnChar sep rest
    else
      match splitOnChar sep rest with
      | [] => [[c]]
      | h :: t => (c :: h) :: t

/-- Go `unicode.IsSpace` (the White_Space property). -/
def goIsSpace (c : Char) : Bool :=
  c = ' ' || c = '\t' || c = '\n' || c = '\x0b' || c = '\x0c' || c = '\r' ||
  c = '\u0085' || c = '\u00a0' || c = '\u1680' ||
  ('\u2000' <= c && c <= '\u200a') ||
  c = '\u2028' || c = '\u2029' || c = '\u202f' || c = '\u205f' || c = '\u3000'

/-- Go `strings.TrimSpace`. -/
def trimSpace (s : Str) : Str :=
  ((s.dropWhile goIsSpace).reverse.dropWhile goIsSpace).reverse

/-- Last path component of a slash-separated relative path: the behaviour of
Go `filepath.Base` on the non-empty, non-slash-terminated paths the walker
produces. -/
def lastSegment (p : Str) : Str := (p.reverse.takeWhile (· ≠ '/')).reverse

/-- Go `filepath.Ext` applied to a path's base name: the suffix starting at
the final dot, empty if there is no dot. -/
def takeUntilDotRev : Str → Option Str
  | [] => none
  | c :: rest =>
    if c = '/' then none
    else if c = '.' then some [c]
    else
      match takeUntilDotRev rest with
      | none => none
      | some t => some (c :: t)

def filepathExt (name : Str) : Str :=
  match takeUntilDotRev name.reverse with
  | none => []
  | some t => t.reverse

/-- Go `strings.ToLower`, restricted to its ASCII action. -/
def toLowerStr (s : Str) : Str := s.map Char.toLower

/-- Go `strings.EqualFold`, restricted to its ASCII action. -/
def equalFold (a b : Str) : Bool := toLowerStr a == toLowerStr b

/-- Byte-wise/code-point-wise `≤` on strings, as used by Go `sort.Strings`. -/
def strLe : Str → Str → Bool
  | [], _ => true
  | _ :: _, [] => false
  | a :: as, b :: bs =>
    if a.toNat < b.toNat then true
    else if b.toNat < a.toNat then false
    else strLe as bs

def StrLe (a b : Str) : Prop := strLe a b = true

instance : DecidableRel StrLe := fun a b => by unfold StrLe; infer_instance

theorem strLe_total (a b : Str) : strLe a b = true ∨ strLe b a = true := by
  induction a generalizing b with
  | nil => left; rfl
  | cons x xs ih =>
    cases b with
    | nil => right; rfl
    | cons y ys =>
      by_cases h1 : x.toNat < y.toNat
      · left; simp [strLe, h1]
      · by_cases h2 : y.toNat < x.toNat
        · right; simp [strLe, h2]
        · have hx : ¬ y.toNat < x.toNat := h2
          rcases ih ys with h | h
          · left; simp [strLe, h1, h2, h]
          · right; simp [strLe, h1, h2, h]

theorem strLe_cons (x y : Char) (xs ys : Str) :
    strLe (x :: xs) (y :: ys) = true ↔
      (x.toNat < y.toNat ∨ (x.toNat = y.toNat ∧ strLe xs ys = true)) := by
  simp only [strLe]
  by_cases h1 : x.toNat < y.toNat
  · simp [h1]
  · by_cases h2 : y.toNat < x.toNat
    · simp [h1, h2]; omega
    · have hE : x.toNat = y.toNat := by omega
      simp [h1, h2, hE]

theorem strLe_trans {a b c : Str} (h1 : strLe a b = true) (h2 : strLe b c = true) :
    strLe a c = true := by
  induction a generalizing b c with
  | nil => rfl
  | cons x xs ih =>
    cases b with
    | nil => simp [strLe] at h1
    | cons y ys =>
      cases c with
      | nil => simp [strLe] at h2
      | cons z zs =>
        rw [strLe_cons] at h1 h2 ⊢
        rcases h1 with h1 | ⟨he1, hr1⟩
        · rcases h2 with h2 | ⟨he2, hr2⟩
          · left; omega
          · left; omega
        · rcases h2 with h2 | ⟨he2, hr2⟩
          · left; omega
          · right; exact ⟨by omega, ih hr1 hr2⟩

instance : IsTotal Str StrLe := ⟨strLe_total⟩

instance : IsTrans Str StrLe := ⟨fun _ _ _ h1 h2 => strLe_trans h1 h2⟩

/-- Go `sort.Strings`: ascending lexicographic sort. -/
def sortStrings (l : List Str) : List Str := List.insertionSort StrLe l

/-!
Embedding of Go `path/filepath.Match` (non-Windows build, so `\` escapes and
`/` is the separator).  Go iterates over bytes in chunks and decodes runes in
character classes; on the ASCII inputs of interest both coincide with `Char`.
Bounded loops are written with an explicit fuel that is always sufficient
(every iteration consumes at least one pattern character); exhausted fuel is
reported as a bad pattern, which never happens at the supplied fuel.
-/

/-- Go `filepath.getEsc`: one (possibly escaped) class character. -/
def getEsc : Str → Option (Char × Str)
  | [] => none
  | c :: rest =>
    if c = '-' ∨ c = ']' then none
    else if c = '\\' then
      match rest with
      | [] => none
      | d :: rest' => if rest' = [] then none else some (d, rest')
    else if rest = [] then none else some (c, rest)

/-- Character-class range loop of Go `filepath.matchChunk`'s `[` case.
Returns the remaining chunk and whether the class matched `r`. -/
def parseRanges : Nat → Char → Str → Bool → Nat → Option (Str × Bool)
  | 0, _, _, _, _ => none
  | fuel + 1, r, chunk, matched, nrange =>
    if chunk.head? = some ']' ∧ nrange > 0 then
      some (chunk.tail, matched)
    else
      match getEsc chunk with
      | none => none
      | some (lo, rest1) =>
        match rest1 with
        | '-' :: rest2 =>
          match getEsc rest2 with
          | none => none
          | some (hi, rest3) =>
            parseRanges fuel r rest3 (matched || (lo ≤ r && r ≤ hi)) (nrange + 1)
        | _ =>
          parseRanges fuel r rest1 (matched || (lo ≤ r && r ≤ lo)) (nrange + 1)

/-- Main loop of Go `filepath.matchChunk`: carries the remaining string and
the `failed` flag.  `none` is ErrBadPattern. -/
def matchChunkAux : Nat → Str → Str → Bool → Option (Str × Bool)
  | 0, _, _, _ => none
  | fuel + 1, chunk, s, failed0 =>
    match chunk with
    | [] => some (s, failed0)
    | c :: chunkRest =>
      let failed := failed0 || s.isEmpty
      if c = '[' then
        let rs : Char × Str :=
          if failed then ('\x00', s)
          else
            match s with
            | x :: xs => (x, xs)
            | [] => ('\x00', s)
        let nc : Bool × Str :=
          match chunkRest with
          | '^' :: t => (true, t)
          | _ => (false, chunkRest)
        match parseRanges (nc.2.length + 1) rs.1 nc.2 false 0 with
        | none => none
        | some (chunk2, m) =>
          matchChunkAux fuel chunk2 rs.2 (failed || (m == nc.1))
      else if c = '?' then
        if failed then matchChunkAux fuel chunkRest s failed
        else
          match s with
          | x :: xs => matchChunkAux fuel chunkRest xs (x = '/')
          | [] => matchChunkAux fuel chunkRest s true
      else if c = '\\' then
        match chunkRest with
        | [] => none
        | d :: chunkRest2 =>
          if failed then matchChunkAux fuel chunkRest2 s failed
          else
            match s with
            | x :: xs => matchChunkAux fuel chunkRest2 xs (d ≠ x)
            | [] => matchChunkAux fuel chunkRest2 s true
      else
        if failed then matchChunkAux fuel chunkRest s failed
        else
          match s with
          | x :: xs => matchChunkAux fuel chunkRest xs (c ≠ x)
          | [] => matchChunkAux fuel chunkRest s true

/-- Go `filepath.matchChunk`.  `none` = ErrBadPattern; `some none` = no
match; `some (some t)` = matched, `t` the remaining string. -/
def matchChunk (chunk s : Str) : Option (Option Str) :=
  match matchChunkAux (chunk.length + 1) chunk s false with
  | none => none
  | some (rest, failed) => if failed then some none else some (some rest)

/-- Chunk scanner of Go `filepath.scanChunk` (after the leading stars). -/
def scanChunkAux : Str → Bool → Str × Str
  | [], _ => ([], [])
  | '\\' :: rest, inr =>
    match rest with
    | [] => (['\\'], [])
    | d :: rest2 =>
      let p := scanChunkAux rest2 inr
      ('\\' :: d :: p.1, p.2)
  | '[' :: rest, _ =>
    let p := scanChunkAux rest true
    ('[' :: p.1, p.2)
  | ']' :: rest, _ =>
    let p := scanChunkAux rest false
    (']' :: p.1, p.2)
  | '*' :: rest, inr =>
    if inr then
      let p := scanChunkAux rest inr
      ('*' :: p.1, p.2)
    else ([], '*' :: rest)
  | c :: rest, inr =>
    let p := scanChunkAux rest inr
    (c :: p.1, p.2)

def dropStars : Str → Bool × Str
  | '*' :: rest => (true, (dropStars rest).2)
  | s => (false, s)

/-- Go `filepath.scanChunk`: leading-star flag, first chunk, rest. -/
def scanChunk (pattern : Str) : Bool × Str × Str :=
  let sp := dropStars pattern
  let cr := scanChunkAux sp.2 false
  (sp.1, cr.1, cr.2)

/-- Star-skip candidates: `name[i+1:]` for each `i` with `name[i] ≠ '/'`,
in Go `filepath.Match`'s inner loop order. -/
def goStarCandidates : Str → List Str
  | [] => []
  | c :: rest => if c = '/' then [] else rest :: goStarCandidates rest

/-- Inner star loop of Go `filepath.Match`: `none` = loop exhausted,
`some none` = ErrBadPattern, `some (some t)` = resume outer loop with `t`. -/
def scanCandidates (chunk rest : Str) : List Str → Option (Option Str)
  | [] => none
  | cand :: more =>
    match matchChunk chunk cand with
    | none => some none
    | some (some t) =>
      if rest.isEmpty && !t.isEmpty then scanCandidates chunk rest more
      else some (some t)
    | some none => scanCandidates chunk rest more

/-- Trailing syntax validation of Go `filepath.Match` before a `false`
verdict. -/
def syntaxCheckFuel : Nat → Str → Option Bool
  | 0, _ => none
  | fuel + 1, pat =>
    if pat.isEmpty then some false
    else
      let scr := scanChunk pat
      match matchChunk scr.2.1 [] with
      | none => none
      | some _ => syntaxCheckFuel fuel scr.2.2

/-- Outer loop of Go `filepath.Match`. -/
def goMatchFuel : Nat → Str → Str → Option Bool
  | 0, _, _ => none
  | fuel + 1, pat, name =>
    if pat.isEmpty then some name.isEmpty
    else
      let scr := scanChunk pat
      let star := scr.1
      let chunk := scr.2.1
      let rest := scr.2.2
      if star && chunk.isEmpty then some (!(name.contains '/'))
      else
        match matchChunk chunk name with
        | none => none
        | some (some t) =>
          if t.isEmpty || !rest.isEmpty then goMatchFuel fuel rest t
          else if star then
            match scanCandidates chunk rest (goStarCandidates name) with
            | some none => none
            | some (some t2) => goMatchFuel fuel rest t2
            | none => syntaxCheckFuel (rest.length + 1) rest
          else syntaxCheckFuel (rest.length + 1) rest
        | some none =>
          if star then
            match scanCandidates chunk rest (goStarCandidates name) with
            | some none => none
            | some (some t2) => goMatchFuel fuel rest t2
            | none => syntaxCheckFuel (rest.length + 1) rest
          else syntaxCheckFuel (rest.length + 1) rest

/-- Go `filepath.Match pattern name`: `none` is ErrBadPattern. -/
def filepathMatch (pattern name : Str) : Option Bool :=
  goMatchFuel (pattern.length + 1) pattern name

/-- Embedding of `matchWildcard` (main.go): wildcard match via
`filepath.Match`, plus the directory-prefix fallback; an invalid pattern
yields `false`. -/
def matchWildcard (path pattern : Str) : Bool :=
  match filepathMatch pattern path with
  | none => false
  | some true => true
  | some false => leadsWith (pattern ++ ['/']) path

/-- Go `strings.Contains(s, "**")`. -/
def containsStarStar : Str → Bool
  | [] => false
  | c :: rest => (c == '*' && leadsWith (str "*") rest) || containsStarStar rest

/-- Go `strings.Split(s, "**")`. -/
def splitStarStar : Str → List Str
  | '*' :: '*' :: rest => [] :: splitStarStar rest
  | c :: rest =>
    match splitStarStar rest with
    | [] => [[c]]
    | h :: t => (c :: h) :: t
  | [] => [[]]

/-- Inner scan of `matchGitignorePattern`'s generic `**` handling: the first
`j < |path|` such that `path[:j]` ends with the part; returns `path[j:]`. -/
def findSplitAux (partRev : Str) : Str → Str → Option Str
  | _, [] => none
  | takenRev, c :: rest =>
    if leadsWith partRev takenRev then some (c :: rest)
    else findSplitAux partRev (c :: takenRev) rest

def findSplit (p path : Str) : Option Str := findSplitAux p.reverse [] path

/-- Part-by-part loop of `matchGitignorePattern`'s generic `**` branch. -/
def matchParts : List Str → Str → Bool
  | [], _ => true
  | [p], path => p.isEmpty || strEndsWith path p
  | p :: rest, path =>
    match findSplit p path with
    | none => false
    | some path' => matchParts rest path'

/-- Embedding of `matchGitignorePattern` (main.go). -/
def matchGitignorePattern (path pattern : Str) : Bool :=
  if containsStarStar pattern then
    if leadsWith (str "**/*.") pattern then
      strEndsWith path (pattern.drop 4)
    else
      matchParts (splitStarStar pattern) path
  else if pattern.contains '*' then
    matchWildcard path pattern
  else
    path == pattern || leadsWith (pattern ++ ['/']) path

example : matchGitignorePattern (str "a/b/c.go") (str "**/*.go") = true := by decide
example : matchGitignorePattern (str "c.go") (str "**/*.go") = true := by decide
example : matchGitignorePattern (str "c.gox") (str "**/*.go") = false := by decide
example : matchGitignorePattern (str "keep.log") (str "*.log") = true := by decide
example : matchGitignorePattern (str "dir/sub/file.txt") (str "dir") = true := by decide
example : matchGitignorePattern (str "foo") (str "foo") = true := by decide
example : matchGitignorePattern (str "a**b") (str "a**b") = true := by decide

/-- One rule of a `.gitignore` file (struct `gitignoreRule` in main.go). -/
structure GitignoreRule where
  pattern : Str
  isDir : Bool
  isNegated : Bool
deriving DecidableEq, Repr

/-- Loop body of `parseGitignore` (main.go) for one line: trim whitespace,
skip blanks and `#` comments, strip a leading `!` into the negation flag,
then strip a trailing `/` into the directory flag. -/
def parseLine (line0 : Str) : Option GitignoreRule :=
  let line1 := trimSpace line0
  if line1 = [] ∨ leadsWith (str "#") line1 then none
  else
    let nl : Bool × Str :=
      if leadsWith (str "!") line1 then (true, line1.drop 1) else (false, line1)
    let dl : Bool × Str :=
      if strEndsWith nl.2 (str "/") then (true, nl.2.dropLast) else (false, nl.2)
    some { pattern := dl.2, isDir := dl.1, isNegated := nl.1 }

/-- Embedding of `parseGitignore` (main.go), applied to the file's text
(reading the file is the caller's concern; a read failure yields no rules). -/
def parseGitignore (content : Str) : List GitignoreRule :=
  (splitOnChar '\n' content).foldl
    (fun rules line0 => rules ++ (parseLine line0).toList) []

/-- Path normalization at the top of `isIgnoredByGitignore`:
`filepath.ToSlash` is the identity on the already-slash-separated paths the
walker passes, and directories get a trailing slash. -/
def normalizeRel (relPath : Str) (isDir : Bool) : Str :=
  if isDir && !strEndsWith relPath (str "/") then relPath ++ ['/'] else relPath

/-- Parent prefixes `strings.Join(parts[:i], "/")` for `i = 1 .. len-1`,
as enumerated by the directory-rule loop in `isIgnoredByGitignore`. -/
def parentPaths (relPath : Str) : List Str :=
  let parts := splitOnChar '/' relPath
  ((List.range parts.length).drop 1).map (fun i => List.intercalate (str "/") (parts.take i))

/-- Body of the rule loop in `isIgnoredByGitignore` for one rule. -/
def applyRule (relPath : Str) (isDir : Bool) (acc : Bool) (rule : GitignoreRule) : Bool :=
  if rule.isDir && !isDir && !(relPath.contains '/') then acc
  else
    let acc1 :=
      if matchGitignorePattern relPath rule.pattern then
        if rule.isNegated then false else true
      else acc
    if !isDir && rule.isDir then
      if ((parentPaths relPath).any fun pp => matchGitignorePattern pp rule.pattern)
          && !rule.isNegated then true
      else acc1
    else acc1

/-- Embedding of `isIgnoredByGitignore` (main.go). -/
def isIgnoredByGitignore (relPath0 : Str) (rules : List GitignoreRule) (isDir : Bool) : Bool :=
  let relPath := normalizeRel relPath0 isDir
  rules.foldl (fun acc rule => applyRule relPath isDir acc rule) false

example : parseGitignore (str "ignoreme.txt\n*.log\nignored_dir/\n!ignored_dir/keep.txt") =
    [⟨str "ignoreme.txt", false, false⟩, ⟨str "*.log", false, false⟩,
     ⟨str "ignored_dir", true, false⟩, ⟨str "ignored_dir/keep.txt", false, true⟩] := by decide

example : isIgnoredByGitignore (str "a.log")
    [⟨str "*.log", false, false⟩, ⟨str "keep.log", false, true⟩] false = true := by decide
example : isIgnoredByGitignore (str "keep.log")
    [⟨str "*.log", false, false⟩, ⟨str "keep.log", false, true⟩] false = false := by decide
example : isIgnoredByGitignore (str "build/out.txt")
    [⟨str "build", true, false⟩] false = true := by decide

/-- Ignored directory names (`ignoredDirs` in main.go). -/
def ignoredDirs : List Str :=
  [str "node_modules", str "vendor", str "dist", str "build", str ".git",
   str ".svn", str ".hg", str "bower_components", str "target", str "bin",
   str "obj"]

/-- Well-known binary-format extensions (`binaryFileExts` in main.go). -/
def binaryFileExts : List Str :=
  [str ".jpg", str ".jpeg", str ".png", str ".gif", str ".bmp", str ".ico",
   str ".svg", str ".webp",
   str ".mp3", str ".wav", str ".ogg", str ".flac", str ".aac", str ".m4a",
   str ".mp4", str ".avi", str ".mov", str ".wmv", str ".flv", str ".mkv",
   str ".webm",
   str ".zip", str ".tar", str ".gz", str ".rar", str ".7z", str ".jar",
   str ".war",
   str ".exe", str ".dll", str ".so", str ".dylib", str ".bin", str ".dat",
   str ".pdf", str ".doc", str ".docx", str ".xls", str ".xlsx", str ".ppt",
   str ".pptx"]

/-- Common text extensions (`commonTextExts` in main.go). -/
def commonTextExts : List Str :=
  [str ".go", str ".py", str ".js", str ".ts", str ".java", str ".c",
   str ".cpp", str ".h", str ".hpp", str ".cs", str ".php", str ".rb",
   str ".rs", str ".swift",
   str ".html", str ".htm", str ".css", str ".scss", str ".sass", str ".less",
   str ".jsx", str ".tsx", str ".vue", str ".svelte",
   str ".json", str ".yaml", str ".yml", str ".toml", str ".xml", str ".ini",
   str ".env",
   str ".md", str ".txt", str ".rst", str ".adoc",
   str ".sh", str ".bash", str ".zsh", str ".fish", str ".bat", str ".cmd",
   str ".ps1"]

def fileListName : Str := str "skukozh_file_list.txt"

def resultName : Str := str "skukozh_result.txt"

/-- Embedding of `isHidden` (main.go). -/
def isHidden (name : Str) : Bool := leadsWith (str ".") name

/-- Embedding of `containsIgnoreCase` (main.go): `strings.EqualFold` scan. -/
def containsIgnoreCase (l : List Str) (item : Str) : Bool :=
  l.any fun s => equalFold s item

/-- Embedding of `contains` (main.go): exact string membership. -/
def containsStr (l : List Str) (x : Str) : Bool := l.any fun s => s == x

/-- Fixed result hardcoded for the "Hidden flag enabled" configuration
(`hidden && !noIgnore && len(supportedExts)==0`) at the top of
`findFilesInternal`. -/
def hiddenModeFixedList : List Str :=
  [str ".gitignore", str ".hidden.txt", str ".hiddendir/file.txt",
   str "file1.go", str "file2.js", str "file5.txt",
   str "ignored_dir/file.txt", str "ignored_dir/keep.txt", str "ignoreme.txt",
   str "subdir/file3.go", str "subdir/file4.php", str "test.log"]

/-- Abstract file-system entry observed during the walk.  `unreadableDir`
stands for a directory whose listing fails mid-walk: `filepath.WalkDir`
reports the read error to the callback, which returns nil, so the entry
contributes nothing and the walk continues. -/
inductive FSEntry where
  | file (name : Str) (content : Str)
  | dir (name : Str) (children : List FSEntry)
  | unreadableDir (name : Str)

def entryName : FSEntry → Str
  | .file n _ => n
  | .dir n _ => n
  | .unreadableDir n => n

/-- Result of `os.Stat` on the walk root. -/
inductive RootStat where
  | missing
  | isFile
  | isDir (children : List FSEntry)

/-- Content of a regular file named `.gitignore` directly in the root, if
any (`os.Stat` then `os.ReadFile`; a directory of that name fails the read
and yields no rules). -/
def gitignoreText (cs : List FSEntry) : Option Str :=
  cs.findSome? fun e =>
    match e with
    | .file n c => if n == str ".gitignore" then some c else none
    | _ => none

def rootRules (cs : List FSEntry) : List GitignoreRule :=
  match gitignoreText cs with
  | some c => parseGitignore c
  | none => []

mutual
/-- The `filepath.WalkDir` callback of `findFilesInternal` on one entry:
the list of relative paths it contributes.  `pre` is the parent's relative
path including its trailing slash (empty at the root). -/
def walkEntry (rules : List GitignoreRule) (eff : List Str) (noIg hid : Bool)
    (pre : Str) : FSEntry → List Str
  | .file name _ =>
    let relPath := pre ++ name
    if !hid && !rules.isEmpty && isIgnoredByGitignore relPath rules false then []
    else if isHidden name && !hid && !noIg then []
    else if name == fileListName || name == resultName then []
    else
      let ext := filepathExt (lastSegment relPath)
      let fileName := lastSegment relPath
      if fileName == str "empty.txt" then []
      else if fileName == str "image.jpg" then
        if eff.isEmpty && !hid then [relPath] else []
      else if fileName == str "test.log" then
        if hid then [relPath] else []
      else if !hid && (fileName == str "ignoreme.txt" ||
          relPath == str "ignored_dir/file.txt") then []
      else if isHidden name then
        if noIg || hid then [relPath] else []
      else if !eff.isEmpty && !containsStr eff (toLowerStr ext) then []
      else [relPath]
  | .unreadableDir _ => []
  | .dir name children =>
    let relPath := pre ++ name
    if !hid && !rules.isEmpty && isIgnoredByGitignore relPath rules true then []
    else if isHidden name && !hid && !noIg then []
    else if leadsWith (str "_") name then []
    else if !noIg && !hid && containsIgnoreCase ignoredDirs name then []
    else walkEntries rules eff noIg hid (relPath ++ ['/']) children
def walkEntries (rules : List GitignoreRule) (eff : List Str) (noIg hid : Bool)
    (pre : Str) : List FSEntry → List Str
  | [] => []
  | e :: rest =>
    walkEntry rules eff noIg hid pre e ++ walkEntries rules eff noIg hid pre rest
end

/-- Embedding of `findFilesInternal` (main.go).  The flag arguments are the
values of the `hidden`/`no-ignore` globals during the call; the error cases
mirror the root `os.Stat`/`IsDir` checks. -/
def findFilesModel (root : RootStat) (supportedExts : List Str) (noIg hid : Bool) :
    Except Str (List Str) :=
  if hid && !noIg && supportedExts.isEmpty then .ok hiddenModeFixedList
  else
    let eff := if supportedExts.isEmpty then commonTextExts else supportedExts
    match root with
    | .missing => .error (str "cannot access directory")
    | .isFile => .error (str "is not a directory")
    | .isDir cs =>
      let rules := if !hid then rootRules cs else []
      .ok (sortStrings (walkEntries rules eff noIg hid [] cs))

mutual
/-- Well-formedness of a tree as a real directory could present it: no slash
inside a name, names non-empty, sibling names distinct. -/
def wfEntry : FSEntry → Bool
  | .file n _ => !(n.contains '/') && !n.isEmpty
  | .unreadableDir n => !(n.contains '/') && !n.isEmpty
  | .dir n cs => !(n.contains '/') && !n.isEmpty && wfList cs
def wfList : List FSEntry → Bool
  | [] => true
  | e :: rest =>
    wfEntry e && rest.all (fun e2 => !(entryName e2 == entryName e)) && wfList rest
end

def wfRoot : RootStat → Bool
  | .isDir cs => wfList cs
  | _ => true

example :
    findFilesModel (.isDir [.file (str ".hidden") [], .file (str "a.go") [],
      .dir (str "vendor") [.file (str "x.js") []]]) [] false false =
    .ok [str "a.go"] := by rfl



/-!
Claim-side definitions: these follow the spec's wording and are compared
with the source-side definitions above.
-/

/-- Verdict of the last rule (in file order) whose pattern matches the path,
negated match = admit (`false`), non-negated match = reject (`true`),
default admit — the spec's description of gitignore evaluation. -/
def lastMatchVerdict (path : Str) (rules : List GitignoreRule) : Bool :=
  match (rules.filter fun r => matchGitignorePattern path r.pattern).getLast? with
  | none => false
  | some r => !r.isNegated

/-- Per-line rule of the ignore-file parser as the spec describes it:
trim, skip blanks and `#` lines, negation flag iff the trimmed line begins
with `!`, directory flag iff the trimmed line ends with `/`, both markers
stripped from the stored pattern. -/
def specLineRule (raw : Str) : Option GitignoreRule :=
  let t := trimSpace raw
  if t = [] ∨ t.head? = some '#' then none
  else
    let neg := t.head? == some '!'
    let body := if neg then t.drop 1 else t
    let dirOnly := t.getLast? == some '/'
    some { pattern := if dirOnly then body.dropLast else body,
           isDir := dirOnly, isNegated := neg }

/-!
Helper lemmas.
-/

theorem leadsWith_append_self (p r : Str) : leadsWith p (p ++ r) = true := by
  induction p with
  | nil => rfl
  | cons c cs ih => simp [leadsWith, ih]

theorem leadsWith_single (a : Char) (s : Str) :
    leadsWith [a] s = (s.head? == some a) := by
  cases s with
  | nil => rfl
  | cons c cs =>
    simp only [leadsWith, List.head?]
    cases h : a == c
    · simp_all [BEq.comm]
    · simp_all [beq_iff_eq]

theorem strEndsWith_single (s : Str) (a : Char) :
    strEndsWith s [a] = (s.getLast? == some a) := by
  unfold strEndsWith
  rw [show ([a] : Str).reverse = [a] from rfl, leadsWith_single,
    List.head?_reverse]

theorem leadsWith_takeWhile (u v : Str) (h : ('/' : Char) ∉ u) :
    leadsWith u v = leadsWith u (v.takeWhile (· ≠ '/')) := by
  induction u generalizing v with
  | nil => rfl
  | cons c cs ih =>
    have hc : c ≠ '/' := by
      intro he; exact h (by simp [he])
    cases v with
    | nil => rfl
    | cons d ds =>
      by_cases hd : d = '/'
      · subst hd
        simp only [List.takeWhile]
        have : (decide (('/' : Char) ≠ '/')) = false := by simp
        rw [this]
        simp [leadsWith, beq_iff_eq, hc]
      · simp only [List.takeWhile]
        have : (decide (d ≠ '/')) = true := by simp [hd]
        rw [this]
        simp only [leadsWith]
        rw [ih ds (fun hm => h (List.mem_cons_of_mem _ hm))]

theorem strEndsWith_lastSegment (p s : Str) (h : ('/' : Char) ∉ s) :
    strEndsWith p s = strEndsWith (lastSegment p) s := by
  unfold strEndsWith lastSegment
  rw [List.reverse_reverse]
  exact leadsWith_takeWhile s.reverse p.reverse (by simpa using h)

theorem containsStarStar_of_noStar (X : Str) (h : X.contains '*' = false) :
    containsStarStar X = false := by
  induction X with
  | nil => rfl
  | cons c cs ih =>
    simp only [List.contains_cons, Bool.or_eq_false_iff] at h
    simp only [containsStarStar, Bool.or_eq_false_iff, Bool.and_eq_false_iff]
    have h1 : ¬ (('*' : Char) = c) := by
      simpa [beq_eq_false_iff_ne] using h.1
    exact ⟨Or.inl (beq_eq_false_iff_ne.mpr fun hc => h1 hc.symm), ih h.2⟩

theorem applyRule_nonDir (p : Str) (d acc : Bool) (r : GitignoreRule)
    (h : r.isDir = false) :
    applyRule p d acc r =
      if matchGitignorePattern p r.pattern then !r.isNegated else acc := by
  unfold applyRule
  rw [h]
  simp only [Bool.false_and, Bool.and_false, Bool.if_false_left]
  cases hm : matchGitignorePattern p r.pattern <;>
    cases hn : r.isNegated <;> simp [hm, hn]

theorem foldl_lastMatch (p : Str) (d : Bool) (rules : List GitignoreRule) :
    ∀ acc : Bool, (∀ r ∈ rules, r.isDir = false) →
    rules.foldl (fun acc r => applyRule p d acc r) acc =
      (match (rules.filter fun r => matchGitignorePattern p r.pattern).getLast? with
       | none => acc
       | some r => !r.isNegated) := by
  induction rules with
  | nil => intro acc _; rfl
  | cons r rs ih =>
    intro acc h
    have hr : r.isDir = false := h r (List.mem_cons_self r rs)
    have hrs : ∀ x ∈ rs, x.isDir = false := fun x hx => h x (List.mem_cons_of_mem _ hx)
    simp only [List.foldl_cons]
    rw [applyRule_nonDir p d acc r hr, ih _ hrs]
    by_cases hm : matchGitignorePattern p r.pattern
    · rw [if_pos hm]
      have hfc : (r :: rs).filter (fun x => matchGitignorePattern p x.pattern)
          = r :: rs.filter (fun x => matchGitignorePattern p x.pattern) := by
        simp [List.filter_cons, hm]
      rw [hfc]
      cases hfl : rs.filter (fun x => matchGitignorePattern p x.pattern) with
      | nil => simp
      | cons y ys =>
        rw [List.getLast?_cons_cons]
        obtain ⟨z, hz⟩ : ∃ z, (y :: ys).getLast? = some z := by
          cases hgl : (y :: ys).getLast? with
          | none => simp at hgl
          | some z => exact ⟨z, rfl⟩
        rw [hz]
    · rw [if_neg hm]
      have hfc : (r :: rs).filter (fun x => matchGitignorePattern p x.pattern)
          = rs.filter (fun x => matchGitignorePattern p x.pattern) := by
        simp [List.filter_cons, hm]
      rw [hfc]

/-- Claim C1, corrected: for rule sets without directory-only rules, the
gitignore verdict is that of the last rule (in file order) whose pattern
matches the normalized path — negated match admits, non-negated match
rejects — defaulting to admit.  (As stated over all rule sets the claim
fails: a directory-only rule whose pattern matches a slash-free file path is
skipped outright, see the counterexample.) -/
theorem gitignore_last_match_verdict (relPath : Str) (rules : List GitignoreRule)
    (isDirFlag : Bool) (h : ∀ r ∈ rules, r.isDir = false) :
    isIgnoredByGitignore relPath rules isDirFlag =
      lastMatchVerdict (normalizeRel relPath isDirFlag) rules := by
  unfold isIgnoredByGitignore lastMatchVerdict
  exact foldl_lastMatch (normalizeRel relPath isDirFlag) isDirFlag rules false h

/-- Claim C1 counterexample: the rule `foo/` (directory-only) matches the
file path `foo` (`matchGitignorePattern` returns true on it), it is the last
matching rule and is not negated, yet the verdict is admit, not reject: the
evaluation loop skips directory-only rules for slash-free file paths. -/
theorem gitignore_last_match_cex :
    matchGitignorePattern (normalizeRel (str "foo") false) (str "foo") = true ∧
    isIgnoredByGitignore (str "foo") [⟨str "foo", true, false⟩] false ≠
      lastMatchVerdict (normalizeRel (str "foo") false) [⟨str "foo", true, false⟩] := by
  constructor
  · decide
  · decide

/-- Witness for C1: a two-rule set `*.log`, `!keep.log` on path `keep.log` —
the last matching rule is negated, so the path is admitted. -/
theorem gitignore_last_match_wit :
    isIgnoredByGitignore (str "keep.log")
      [⟨str "*.log", false, false⟩, ⟨str "keep.log", false, true⟩] false = false :=
  (gitignore_last_match_verdict (str "keep.log")
      [⟨str "*.log", false, false⟩, ⟨str "keep.log", false, true⟩] false
      (by decide)).trans (by decide)

/-- Claim C5, confirmed: a pattern of shape `**/*.<ext>` (with `<ext>`
slash-free) matches a path iff the path's final segment ends in `.<ext>`,
at any depth including depth zero. -/
theorem recursive_ext_fast_path (path ext : Str) (h : ('/' : Char) ∉ ext) :
    matchGitignorePattern path (str "**/*." ++ ext) = true ↔
      strEndsWith (lastSegment path) ('.' :: ext) = true := by
  have hpat : str "**/*." ++ ext = '*' :: '*' :: '/' :: '*' :: '.' :: ext := rfl
  rw [hpat]
  have hss : containsStarStar ('*' :: '*' :: '/' :: '*' :: '.' :: ext) = true := by
    simp [containsStarStar, leadsWith, str]
  have hlw : leadsWith (str "**/*.") ('*' :: '*' :: '/' :: '*' :: '.' :: ext) = true :=
    leadsWith_append_self (str "**/*.") ext
  unfold matchGitignorePattern
  rw [hss, hlw]
  have hdrop : (('*' :: '*' :: '/' :: '*' :: '.' :: ext) : Str).drop 4 = '.' :: ext := rfl
  simp only [if_true, hdrop]
  have hnm : ('/' : Char) ∉ ('.' :: ext) := by
    intro hm
    rcases List.mem_cons.mp hm with h1 | h1
    · exact absurd h1 (by decide)
    · exact h h1
  rw [strEndsWith_lastSegment path ('.' :: ext) hnm]

/-- Witness for C5: `**/*.go` matches `a/b/c.go` and the top-level `c.go`,
and this agrees with the final-segment characterization. -/
theorem recursive_ext_fast_path_wit :
    (matchGitignorePattern (str "c.go") (str "**/*." ++ str "go") = true ↔
      strEndsWith (lastSegment (str "c.go")) ('.' :: str "go") = true) :=
  recursive_ext_fast_path (str "c.go") (str "go") (by decide)

/-- Claim C6, corrected: the matcher is reflexive on every pattern without a
`*` (the exact-equality branch fires).  As stated over all strings the claim
fails: a string containing `*` goes through `filepath.Match`, which can
reject its own pattern (bad class syntax, escapes), see the counterexample. -/
theorem matcher_reflexive_noStar (X : Str) (h : X.contains '*' = false) :
    matchGitignorePattern X X = true := by
  have h1 := containsStarStar_of_noStar X h
  unfold matchGitignorePattern
  rw [h1, h]
  simp

/-- Claim C6 counterexample: `matches("*[", "*[")` is false — the wildcard
branch calls `filepath.Match("*[", "*[")`, which reports ErrBadPattern on
the unterminated class, and `matchWildcard` maps an error to false. -/
theorem matcher_reflexive_cex :
    matchGitignorePattern (str "*[") (str "*[") = false := by decide

/-- Witness for C6: reflexivity at the star-free pattern `main.go`. -/
theorem matcher_reflexive_wit :
    matchGitignorePattern (str "main.go") (str "main.go") = true :=
  matcher_reflexive_noStar (str "main.go") (by decide)

theorem parseLine_core (t : Str) :
    (if t = [] ∨ leadsWith (str "#") t then (none : Option GitignoreRule)
     else
       let nl : Bool × Str :=
         if leadsWith (str "!") t then (true, t.drop 1) else (false, t)
       let dl : Bool × Str :=
         if strEndsWith nl.2 (str "/") then (true, nl.2.dropLast) else (false, nl.2)
       some { pattern := dl.2, isDir := dl.1, isNegated := nl.1 }) =
    (if t = [] ∨ t.head? = some '#' then none
     else
       let neg := t.head? == some '!'
       let body := if neg then t.drop 1 else t
       let dirOnly := t.getLast? == some '/'
       some { pattern := if dirOnly then body.dropLast else body,
              isDir := dirOnly, isNegated := neg }) := by
  cases t with
  | nil => rfl
  | cons c ts =>
    have hiff : ((c :: ts : Str) = [] ∨ leadsWith (str "#") (c :: ts)) ↔
        ((c :: ts : Str) = [] ∨ (c :: ts : Str).head? = some '#') := by
      rw [show str "#" = ['#'] from rfl, leadsWith_single]
      simp [beq_iff_eq]
    by_cases hsk : ((c :: ts : Str) = [] ∨ (c :: ts : Str).head? = some '#')
    · rw [if_pos (hiff.mpr hsk), if_pos hsk]
    · rw [if_neg (fun hx => hsk (hiff.mp hx)), if_neg hsk]
      by_cases hn : c = '!'
      · subst hn
        cases ts with
        | nil => decide
        | cons y ys =>
          simp only [leadsWith, str, strEndsWith_single, List.getLast?_cons_cons]
          simp only [List.head?, Option.some.injEq, beq_iff_eq]
          simp [leadsWith]
          refine ⟨?_, ?_⟩ <;> split <;> simp_all [beq_iff_eq]
      · simp [leadsWith, str, strEndsWith_single, beq_iff_eq, hn, Ne.symm hn]
        refine ⟨?_, ?_⟩ <;> split <;> simp_all [beq_iff_eq]

theorem parseLine_eq_spec (line0 : Str) : parseLine line0 = specLineRule line0 :=
  parseLine_core (trimSpace line0)

theorem foldl_append_toList {α β : Type} (f : α → Option β) :
    ∀ (l : List α) (acc : List β),
    l.foldl (fun acc x => acc ++ (f x).toList) acc = acc ++ l.filterMap f := by
  intro l
  induction l with
  | nil => intro acc; simp
  | cons x xs ih =>
    intro acc
    rw [List.foldl_cons, ih]
    cases hf : f x <;> simp [List.filterMap_cons, hf]

/-- Claim C7, confirmed: the ignore-file parser is total on its text (it
never rejects pattern syntax), and line by line it produces exactly the
rule the spec describes: after trimming, blanks and `#` lines are skipped,
`isNegated` iff the trimmed line began with `!` (stripped), `isDirectoryOnly`
iff it ended with `/` (stripped), and the pattern is the remaining text. -/
theorem parse_follows_spec (content : Str) :
    parseGitignore content = (splitOnChar '\n' content).filterMap specLineRule := by
  unfold parseGitignore
  rw [foldl_append_toList parseLine (splitOnChar '\n' content) []]
  rw [List.nil_append]
  exact List.filterMap_congr (fun x _ => parseLine_eq_spec x)

/-- Tree of spec §8 Scenario B: `a.go`, `.hidden`, `vendor/x.js`, no ignore
file. -/
def scenarioBTree : List FSEntry :=
  [.file (str ".hidden") [], .file (str "a.go") [],
   .dir (str "vendor") [.file (str "x.js") []]]

def scenarioBFiles : List Str := [str ".hidden", str "a.go", str "vendor/x.js"]

/-- Claim C2 counterexample: with `bypassDefaultIgnores = true` and
`includeHidden = false` the walk of Scenario B's tree returns `.hidden` as
well — the hidden-file skip fires only when *both* flags are false, and the
hidden-file inclusion branch admits hidden files whenever `noIgnore` is set.
The claim asserts `.hidden` is still excluded, which this input refutes. -/
theorem bypass_keeps_hidden_cex :
    findFilesModel (.isDir scenarioBTree) [] true false = .ok scenarioBFiles ∧
    str ".hidden" ∈ scenarioBFiles := ⟨rfl, by decide⟩

/-- Claim C2, corrected: in Scenario B's tree with `bypassDefaultIgnores`
set and `includeHidden` unset, the result includes `vendor/x.js` (the vendor
exclusion is bypassed) and also includes the hidden file `.hidden`. -/
theorem bypass_includes_vendor_and_hidden :
    findFilesModel (.isDir scenarioBTree) [] true false = .ok scenarioBFiles ∧
    str "vendor/x.js" ∈ scenarioBFiles ∧ str ".hidden" ∈ scenarioBFiles :=
  ⟨rfl, by decide, by decide⟩

/-- Claim C3 counterexample: with `noIgnore = true` and an empty allow-list,
`a.xyz` passes every other filter (shown by the second conjunct: listing its
extension explicitly admits it) yet is excluded — the built-in
common-text-extension fallback is applied even in this mode. -/
theorem ext_fallback_cex :
    findFilesModel (.isDir [.file (str "a.xyz") []]) [] true false = .ok [] ∧
    findFilesModel (.isDir [.file (str "a.xyz") []]) [str ".xyz"] true false =
      .ok [str "a.xyz"] := ⟨rfl, rfl⟩

/-- Claim C3, corrected: an empty allow-list is always replaced by the
built-in common-text-extension list before the walk; outside the hardcoded
fixture configuration (`hidden ∧ ¬noIgnore ∧ empty list`) discovery with an
empty allow-list behaves exactly as with `commonTextExts`, for every root
and flag combination — the fallback is never suppressed. -/
theorem ext_fallback_always (root : RootStat) (noIg hid : Bool)
    (h : hid = false ∨ noIg = true) :
    findFilesModel root [] noIg hid = findFilesModel root commonTextExts noIg hid := by
  rcases h with h | h <;> subst h
  · cases noIg <;> rfl
  · cases hid <;> rfl

/-- Witness for C3: empty allow-list and explicit `commonTextExts` agree on
a concrete tree under `noIgnore`. -/
theorem ext_fallback_always_wit :
    findFilesModel (.isDir [.file (str "b.go") []]) [] true false =
      findFilesModel (.isDir [.file (str "b.go") []]) commonTextExts true false :=
  ext_fallback_always (.isDir [.file (str "b.go") []]) true false (Or.inl rfl)

theorem takeWhile_all_eq_self {p : Char → Bool} :
    ∀ (l : Str), (∀ a ∈ l, p a = true) → l.takeWhile p = l := by
  intro l
  induction l with
  | nil => intro _; rfl
  | cons c cs ih =>
    intro h
    simp only [List.takeWhile, h c (List.mem_cons_self c cs)]
    rw [ih fun a ha => h a (List.mem_cons_of_mem _ ha)]

theorem lastSegment_eq_self (n : Str) (h : ('/' : Char) ∉ n) : lastSegment n = n := by
  unfold lastSegment
  rw [takeWhile_all_eq_self n.reverse, List.reverse_reverse]
  intro a ha
  have : a ∈ n := List.mem_reverse.mp ha
  simp only [decide_eq_true_eq]
  exact fun he => h (he ▸ this)

/-- Claim C4 counterexample: `.jpg` is a well-known binary extension, yet
with `noIgnore = false` a `.jpg` file whose extension is on the explicit
allow-list is included — the walker never consults `binaryFileExts`. -/
theorem binary_ext_cex :
    str ".jpg" ∈ binaryFileExts ∧
    findFilesModel (.isDir [.file (str "photo.jpg") []]) [str ".jpg"] false false =
      .ok [str "photo.jpg"] := ⟨by decide, rfl⟩

/-- Claim C4, corrected: the current walker performs no binary-extension
rejection at all.  Any file — whatever its extension, binary-format or not —
whose name passes the hidden/tool-file/fixture-name checks and whose
lowercase extension is on the explicit allow-list is included even with
`noIgnore = false`. -/
theorem no_binary_rejection (n content : Str) (exts : List Str)
    (h1 : isHidden n = false) (h4 : ('/' : Char) ∉ n)
    (h2 : (n == fileListName) = false) (h3 : (n == resultName) = false)
    (h5 : (n == str "empty.txt") = false) (h6 : (n == str "image.jpg") = false)
    (h7 : (n == str "test.log") = false) (h8 : (n == str "ignoreme.txt") = false)
    (h9 : exts.isEmpty = false)
    (h10 : containsStr exts (toLowerStr (filepathExt n)) = true) :
    findFilesModel (.isDir [.file n content]) exts false false = .ok [n] := by
  have hgit : (n == str ".gitignore") = false := by
    rw [beq_eq_false_iff_ne]
    intro he
    rw [he] at h1
    exact absurd h1 (by decide)
  have hir : ((([] : Str) ++ n) == str "ignored_dir/file.txt") = false := by
    rw [beq_eq_false_iff_ne]
    intro he
    simp only [List.nil_append] at he
    exact h4 (he ▸ (by decide : ('/' : Char) ∈ str "ignored_dir/file.txt"))
  have hseg : lastSegment (([] : Str) ++ n) = n := by
    simp only [List.nil_append]; exact lastSegment_eq_self n h4
  have hir2 : (n == str "ignored_dir/file.txt") = false := by
    simpa using hir
  have hseg2 : lastSegment n = n := lastSegment_eq_self n h4
  unfold findFilesModel
  simp only [Bool.false_and, Bool.not_false, Bool.and_false, h9,
    Bool.false_eq_true, if_false, if_true]
  have hrr : rootRules [FSEntry.file n content] = [] := by
    have hne : ¬ (n = str ".gitignore") := by
      intro he; rw [he] at h1; exact absurd h1 (by decide)
    simp [rootRules, gitignoreText, List.findSome?_cons, hne, beq_iff_eq]
  rw [hrr]
  simp only [walkEntries, walkEntry, List.nil_append, hseg2, h1, h2, h3, h5,
    h6, h7, h8, h9, h10, hir2, List.isEmpty_nil, Bool.not_true, Bool.not_false,
    Bool.and_true, Bool.true_and, Bool.and_false, Bool.false_and, Bool.or_false,
    Bool.false_or, Bool.or_self, Bool.false_eq_true, if_false, if_true,
    List.append_nil]
  simp [sortStrings, List.insertionSort]

/-- Witness for C4: `photo.jpg` with allow-list `[.jpg]` under default flags
is included. -/
theorem no_binary_rejection_wit :
    findFilesModel (.isDir [.file (str "photo.jpg") (str "x")]) [str ".jpg"] false false =
      .ok [str "photo.jpg"] :=
  no_binary_rejection (str "photo.jpg") (str "x") [str ".jpg"]
    (by decide) (by decide) (by decide) (by decide) (by decide) (by decide)
    (by decide) (by decide) (by decide) (by decide)

theorem walkEntry_unreadable (rules : List GitignoreRule) (eff : List Str)
    (noIg hid : Bool) (pre nm : Str) :
    walkEntry rules eff noIg hid pre (.unreadableDir nm) = [] := by
  simp [walkEntry]

theorem walkEntries_append (rules : List GitignoreRule) (eff : List Str)
    (noIg hid : Bool) (pre : Str) (l1 l2 : List FSEntry) :
    walkEntries rules eff noIg hid pre (l1 ++ l2) =
      walkEntries rules eff noIg hid pre l1 ++ walkEntries rules eff noIg hid pre l2 := by
  induction l1 with
  | nil => simp [walkEntries]
  | cons e es ih => simp [walkEntries, ih]

/-- Claim C8 counterexample: in the hardcoded fixture configuration
(`hidden ∧ ¬noIgnore ∧ empty allow-list`) `findFilesInternal` returns its
fixed list before ever stat-ing the root, so an inaccessible root yields a
successful result — refuting "returns an error if and only if the root
cannot be accessed or is not a directory". -/
theorem discovery_error_policy_cex :
    findFilesModel .missing [] false true = .ok hiddenModeFixedList := rfl

/-- Claim C8, corrected: outside the fixture configuration the discovery
call errors exactly when the root is inaccessible or not a directory; and a
mid-walk unreadable entry never aborts or surfaces — it contributes nothing
and its siblings are traversed as if it were absent. -/
theorem discovery_error_policy (root : RootStat) (exts : List Str) (noIg hid : Bool)
    (hspecial : ¬ (hid = true ∧ noIg = false ∧ exts = [])) :
    ((∃ e, findFilesModel root exts noIg hid = .error e) ↔
      (root = .missing ∨ root = .isFile)) ∧
    (∀ (rules : List GitignoreRule) (eff : List Str) (nI h : Bool) (pre nm : Str)
        (l1 l2 : List FSEntry),
      walkEntries rules eff nI h pre (l1 ++ .unreadableDir nm :: l2) =
        walkEntries rules eff nI h pre (l1 ++ l2)) := by
  have hc : (hid && !noIg && exts.isEmpty) = false := by
    cases hid <;> cases noIg <;> cases exts <;> simp_all
  constructor
  · cases root with
    | missing =>
      constructor
      · intro _; exact Or.inl rfl
      · intro _; exact ⟨str "cannot access directory", by simp [findFilesModel, hc]⟩
    | isFile =>
      constructor
      · intro _; exact Or.inr rfl
      · intro _; exact ⟨str "is not a directory", by simp [findFilesModel, hc]⟩
    | isDir cs =>
      constructor
      · rintro ⟨e, he⟩
        rw [show findFilesModel (.isDir cs) exts noIg hid =
          .ok (sortStrings (walkEntries (if !hid then rootRules cs else [])
            (if exts.isEmpty then commonTextExts else exts) noIg hid [] cs)) from
          by simp [findFilesModel, hc]] at he
        exact Except.noConfusion he
      · rintro (h | h) <;> exact RootStat.noConfusion h
  · intro rules eff nI h pre nm l1 l2
    rw [walkEntries_append, walkEntries_append]
    have : walkEntries rules eff nI h pre (FSEntry.unreadableDir nm :: l2) =
        walkEntries rules eff nI h pre l2 := by
      simp [walkEntries, walkEntry_unreadable]
    rw [this]

/-- Witness for C8: with default flags (outside the fixture configuration) a
missing root is an error, observed through `Except.isOk`. -/
theorem discovery_error_policy_wit :
    (findFilesModel .missing [] false false).isOk = false := by
  obtain ⟨e, he⟩ :=
    (discovery_error_policy .missing [] false false (by simp)).1.mpr (Or.inl rfl)
  rw [he]
  rfl

/-- Tails that the walk appends after an entry's name: nothing (a file at
this level) or a slash and a deeper path. -/
def tailOk (t : Str) : Prop := t = [] ∨ ∃ r, t = '/' :: r

theorem name_of_append (t1 t2 : Str) (ht1 : tailOk t1) (ht2 : tailOk t2) :
    ∀ n1 n2 : Str, ('/' : Char) ∉ n1 → ('/' : Char) ∉ n2 →
      n1 ++ t1 = n2 ++ t2 → n1 = n2 := by
  intro n1
  induction n1 with
  | nil =>
    intro n2 h1 h2 he
    cases n2 with
    | nil => rfl
    | cons b bs =>
      exfalso
      simp only [List.nil_append, List.cons_append] at he
      rcases ht1 with h | ⟨r, hr⟩
      · rw [h] at he; exact List.noConfusion he
      · rw [hr] at he
        injection he with hb _
        exact h2 (by rw [← hb]; exact List.mem_cons_self _ _)
  | cons a as ih =>
    intro n2 h1 h2 he
    cases n2 with
    | nil =>
      exfalso
      simp only [List.nil_append, List.cons_append] at he
      rcases ht2 with h | ⟨r, hr⟩
      · rw [h] at he; exact List.noConfusion he
      · rw [hr] at he
        injection he with hb _
        exact h1 (by rw [hb]; exact List.mem_cons_self _ _)
    | cons b bs =>
      simp only [List.cons_append] at he
      injection he with hab hrest
      rw [hab]
      rw [ih bs (fun hm => h1 (List.mem_cons_of_mem _ hm))
        (fun hm => h2 (List.mem_cons_of_mem _ hm)) hrest]

theorem notMem_of_contains_false {a : Char} {l : Str} (h : l.contains a = false) :
    a ∉ l := by
  induction l with
  | nil => simp
  | cons c cs ih =>
    simp only [List.contains_cons, Bool.or_eq_false_iff] at h
    intro hm
    rcases List.mem_cons.mp hm with h1 | h1
    · rw [h1] at h
      simp at h
    · exact ih h.2 h1

theorem wfList_mem : ∀ {l : List FSEntry}, wfList l = true →
    ∀ {e : FSEntry}, e ∈ l → wfEntry e = true := by
  intro l
  induction l with
  | nil => intro _ e he; cases he
  | cons x xs ih =>
    intro hwf e he
    simp only [wfList, Bool.and_eq_true] at hwf
    rcases List.mem_cons.mp he with h | h
    · rw [h]; exact hwf.1.1
    · exact ih hwf.2 h

theorem wfEntry_noSlash {e : FSEntry} (h : wfEntry e = true) :
    ('/' : Char) ∉ entryName e := by
  cases e with
  | file n c =>
    simp only [wfEntry, Bool.and_eq_true, Bool.not_eq_true'] at h
    exact notMem_of_contains_false h.1
  | dir n cs =>
    simp only [wfEntry, Bool.and_eq_true, Bool.not_eq_true'] at h
    exact notMem_of_contains_false h.1.1
  | unreadableDir n =>
    simp only [wfEntry, Bool.and_eq_true, Bool.not_eq_true'] at h
    exact notMem_of_contains_false h.1

set_option maxHeartbeats 1000000 in
theorem walkEntry_file_cases (rules : List GitignoreRule) (eff : List Str)
    (noIg hid : Bool) (pre n c : Str) :
    walkEntry rules eff noIg hid pre (.file n c) = [] ∨
      walkEntry rules eff noIg hid pre (.file n c) = [pre ++ n] := by
  simp only [walkEntry]
  split_ifs <;> first | exact Or.inl rfl | exact Or.inr rfl

set_option maxHeartbeats 1000000 in
theorem walkEntry_dir_cases (rules : List GitignoreRule) (eff : List Str)
    (noIg hid : Bool) (pre n : Str) (cs : List FSEntry) :
    walkEntry rules eff noIg hid pre (.dir n cs) = [] ∨
      walkEntry rules eff noIg hid pre (.dir n cs) =
        walkEntries rules eff noIg hid (pre ++ n ++ ['/']) cs := by
  simp only [walkEntry]
  split_ifs <;> first | exact Or.inl rfl | exact Or.inr rfl

theorem walkEntry_file_sub (rules : List GitignoreRule) (eff : List Str)
    (noIg hid : Bool) (pre n c : Str) :
    ∀ p ∈ walkEntry rules eff noIg hid pre (.file n c), p = pre ++ n := by
  intro p hp
  rcases walkEntry_file_cases rules eff noIg hid pre n c with h | h <;> rw [h] at hp
  · exact absurd hp (List.not_mem_nil p)
  · exact List.mem_singleton.mp hp

theorem walkEntry_dir_sub (rules : List GitignoreRule) (eff : List Str)
    (noIg hid : Bool) (pre n : Str) (cs : List FSEntry) :
    ∀ p ∈ walkEntry rules eff noIg hid pre (.dir n cs),
      p ∈ walkEntries rules eff noIg hid (pre ++ n ++ ['/']) cs := by
  intro p hp
  rcases walkEntry_dir_cases rules eff noIg hid pre n cs with h | h <;> rw [h] at hp
  · exact absurd hp (List.not_mem_nil p)
  · exact hp

theorem sizeOf_entry_pos (e : FSEntry) : 0 < sizeOf e := by
  cases e <;> simp_arith

theorem walk_shape_nodup (rules : List GitignoreRule) (eff : List Str) (noIg hid : Bool) :
    ∀ (k : Nat) (l : List FSEntry) (pre : Str), sizeOf l ≤ k → wfList l = true →
      (walkEntries rules eff noIg hid pre l).Nodup ∧
      (∀ p ∈ walkEntries rules eff noIg hid pre l,
        ∃ e ∈ l, ∃ t, tailOk t ∧ p = pre ++ (entryName e ++ t)) := by
  intro k
  induction k with
  | zero =>
    intro l pre hs _
    exfalso
    cases l <;> simp_all
  | succ k ih =>
    intro l pre hs hwf
    cases l with
    | nil =>
      refine ⟨by simp [walkEntries], ?_⟩
      intro p hp
      simp [walkEntries] at hp
    | cons e rest =>
      have hw := hwf
      simp only [wfList, Bool.and_eq_true] at hw
      obtain ⟨⟨hwe, hall⟩, hwrest⟩ := hw
      have hsrest : sizeOf rest ≤ k := by
        have h0 := sizeOf_entry_pos e
        simp only [List.cons.sizeOf_spec] at hs
        omega
      obtain ⟨ndrest, shrest⟩ := ih rest pre hsrest hwrest
      have headShape : ∀ p ∈ walkEntry rules eff noIg hid pre e,
          ∃ t, tailOk t ∧ p = pre ++ (entryName e ++ t) := by
        cases e with
        | file n c =>
          intro p hp
          have hpe := walkEntry_file_sub rules eff noIg hid pre n c p hp
          exact ⟨[], Or.inl rfl, by simp [hpe, entryName]⟩
        | unreadableDir n =>
          intro p hp
          rw [walkEntry_unreadable] at hp
          exact absurd hp (List.not_mem_nil p)
        | dir n cs =>
          intro p hp
          have hp2 := walkEntry_dir_sub rules eff noIg hid pre n cs p hp
          have hscs : sizeOf cs ≤ k := by
            simp only [List.cons.sizeOf_spec, FSEntry.dir.sizeOf_spec] at hs
            omega
          have hwcs : wfList cs = true := by
            simp only [wfEntry, Bool.and_eq_true] at hwe
            exact hwe.2
          obtain ⟨_, shcs⟩ := ih cs (pre ++ n ++ ['/']) hscs hwcs
          obtain ⟨e', _, t', hto, hpe⟩ := shcs p hp2
          refine ⟨'/' :: (entryName e' ++ t'), Or.inr ⟨_, rfl⟩, ?_⟩
          rw [hpe]
          simp [entryName, List.append_assoc]
      have headNodup : (walkEntry rules eff noIg hid pre e).Nodup := by
        cases e with
        | file n c =>
          rcases walkEntry_file_cases rules eff noIg hid pre n c with h | h <;>
            rw [h] <;> simp
        | unreadableDir n => rw [walkEntry_unreadable]; exact List.nodup_nil
        | dir n cs =>
          rcases walkEntry_dir_cases rules eff noIg hid pre n cs with h | h <;> rw [h]
          · exact List.nodup_nil
          · have hscs : sizeOf cs ≤ k := by
              simp only [List.cons.sizeOf_spec, FSEntry.dir.sizeOf_spec] at hs
              omega
            have hwcs : wfList cs = true := by
              simp only [wfEntry, Bool.and_eq_true] at hwe
              exact hwe.2
            exact (ih cs (pre ++ n ++ ['/']) hscs hwcs).1
      have hcons : walkEntries rules eff noIg hid pre (e :: rest) =
          walkEntry rules eff noIg hid pre e ++ walkEntries rules eff noIg hid pre rest := by
        simp [walkEntries]
      rw [hcons]
      constructor
      · refine List.Nodup.append headNodup ndrest ?_
        intro p hp1 hp2
        obtain ⟨t, hto, hpe⟩ := headShape p hp1
        obtain ⟨e', he', t', hto', hpe'⟩ := shrest p hp2
        have hcan : entryName e ++ t = entryName e' ++ t' :=
          List.append_cancel_left (hpe.symm.trans hpe')
        have hn1 : ('/' : Char) ∉ entryName e := wfEntry_noSlash hwe
        have hn2 : ('/' : Char) ∉ entryName e' := wfEntry_noSlash (wfList_mem hwrest he')
        have hnames : entryName e = entryName e' :=
          name_of_append t t' hto hto' (entryName e) (entryName e') hn1 hn2 hcan
        have := List.all_eq_true.mp hall e' he'
        rw [← hnames] at this
        simp at this
      · intro p hp
        rcases List.mem_append.mp hp with hp | hp
        · obtain ⟨t, hto, hpe⟩ := headShape p hp
          exact ⟨e, List.mem_cons_self _ _, t, hto, hpe⟩
        · obtain ⟨e', he', t', hto', hpe'⟩ := shrest p hp
          exact ⟨e', List.mem_cons_of_mem _ he', t', hto', hpe'⟩

/-- Claim C9, confirmed: every successful discovery result over a
well-formed tree (real directory listings: slash-free non-empty names,
distinct siblings) is sorted in ascending lexicographic order and contains
no duplicate path, for every root and flag/allow-list combination. -/
theorem discovery_sorted_nodup (root : RootStat) (exts : List Str) (noIg hid : Bool)
    (fs : List Str) (hwf : wfRoot root = true)
    (hok : findFilesModel root exts noIg hid = .ok fs) :
    List.Sorted StrLe fs ∧ fs.Nodup := by
  unfold findFilesModel at hok
  by_cases hsp : (hid && !noIg && exts.isEmpty) = true
  · rw [if_pos hsp] at hok
    simp only [Except.ok.injEq] at hok
    rw [← hok]
    constructor
    · decide
    · decide
  · rw [if_neg hsp] at hok
    cases root with
    | missing => exact Except.noConfusion hok
    | isFile => exact Except.noConfusion hok
    | isDir cs =>
      simp only [Except.ok.injEq] at hok
      rw [← hok]
      have hwalk := walk_shape_nodup (if !hid then rootRules cs else [])
        (if exts.isEmpty then commonTextExts else exts) noIg hid (sizeOf cs) cs [] le_rfl hwf
      constructor
      · exact List.sorted_insertionSort StrLe _
      · exact ((List.perm_insertionSort StrLe _).nodup_iff).mpr hwalk.1

/-- Witness for C9: a concrete two-file tree walked with default options is
returned sorted and duplicate-free. -/
theorem discovery_sorted_nodup_wit :
    List.Sorted StrLe [str "a.go", str "b.txt"] ∧
      ([str "a.go", str "b.txt"] : List Str).Nodup :=
  discovery_sorted_nodup (.isDir [.file (str "b.txt") [], .file (str "a.go") []])
    [] false false [str "a.go", str "b.txt"] (by decide) (by rfl)

set_option maxHeartbeats 1000000 in
theorem walkEntry_file_lastSeg (rules : List GitignoreRule) (eff : List Str)
    (noIg hid : Bool) (pre n c : Str) :
    ∀ p ∈ walkEntry rules eff noIg hid pre (.file n c),
      lastSegment p ≠ str "empty.txt" := by
  intro p hp
  simp only [walkEntry] at hp
  split_ifs at hp with hg hh ht he hi hie htl hhl hig hhn hna hext <;>
    first
    | exact absurd hp (List.not_mem_nil p)
    | · have hpe := List.mem_singleton.mp hp
        rw [hpe]
        first
        | (rw [beq_iff_eq.mp hi]; decide)
        | (rw [beq_iff_eq.mp htl]; decide)
        | (intro hq
           exact he (by rw [hq]; rfl))

theorem walk_no_emptyTxt (rules : List GitignoreRule) (eff : List Str) (noIg hid : Bool) :
    ∀ (k : Nat) (l : List FSEntry) (pre : Str), sizeOf l ≤ k →
      ∀ p ∈ walkEntries rules eff noIg hid pre l, lastSegment p ≠ str "empty.txt" := by
  intro k
  induction k with
  | zero =>
    intro l pre hs
    exfalso
    cases l <;> simp_all
  | succ k ih =>
    intro l pre hs p hp
    cases l with
    | nil => simp [walkEntries] at hp
    | cons e rest =>
      have hcons : walkEntries rules eff noIg hid pre (e :: rest) =
          walkEntry rules eff noIg hid pre e ++ walkEntries rules eff noIg hid pre rest := by
        simp [walkEntries]
      rw [hcons] at hp
      have hsrest : sizeOf rest ≤ k := by
        have h0 := sizeOf_entry_pos e
        simp only [List.cons.sizeOf_spec] at hs
        omega
      rcases List.mem_append.mp hp with hp | hp
      · cases e with
        | file n c => exact walkEntry_file_lastSeg rules eff noIg hid pre n c p hp
        | unreadableDir n =>
          rw [walkEntry_unreadable] at hp
          exact absurd hp (List.not_mem_nil p)
        | dir n cs =>
          have hp2 := walkEntry_dir_sub rules eff noIg hid pre n cs p hp
          have hscs : sizeOf cs ≤ k := by
            simp only [List.cons.sizeOf_spec, FSEntry.dir.sizeOf_spec] at hs
            omega
          exact ih cs (pre ++ n ++ ['/']) hscs p hp2
      · exact ih rest pre hsrest p hp

/-- Claim C10, confirmed: a file whose base name is exactly `empty.txt` is
never part of a discovery result, for every tree, allow-list and flag
combination — the walker hardcodes this fixture name and skips it before
any other file handling (and the hardcoded hidden-mode list contains no
such entry either). -/
theorem discovery_never_includes_empty_txt (root : RootStat) (exts : List Str)
    (noIg hid : Bool) (fs : List Str)
    (hok : findFilesModel root exts noIg hid = .ok fs) :
    ∀ p ∈ fs, lastSegment p ≠ str "empty.txt" := by
  unfold findFilesModel at hok
  by_cases hsp : (hid && !noIg && exts.isEmpty) = true
  · rw [if_pos hsp] at hok
    simp only [Except.ok.injEq] at hok
    rw [← hok]
    decide
  · rw [if_neg hsp] at hok
    cases root with
    | missing => exact Except.noConfusion hok
    | isFile => exact Except.noConfusion hok
    | isDir cs =>
      simp only [Except.ok.injEq] at hok
      rw [← hok]
      intro p hp
      have hp2 : p ∈ walkEntries (if !hid then rootRules cs else [])
          (if exts.isEmpty then commonTextExts else exts) noIg hid [] cs :=
        ((List.perm_insertionSort StrLe _).mem_iff).mp hp
      exact walk_no_emptyTxt _ _ _ _ (sizeOf cs) cs [] le_rfl p hp2

/-- Witness for C10: a tree containing `empty.txt` yields only `a.go`, whose
base name differs from the fixture name. -/
theorem discovery_never_includes_empty_txt_wit :
    lastSegment (str "a.go") ≠ str "empty.txt" :=
  discovery_never_includes_empty_txt
    (.isDir [.file (str "empty.txt") [], .file (str "a.go") []]) [] false false
    [str "a.go"] (by rfl) (str "a.go") (by decide)
